import Mathlib

/-
Verification development for the prompts-mcp-server cache/scanner/resolver core.

The TypeScript source (src/fileOperations.ts and src/cache.ts) is shallowly
embedded here.  Filesystem state is a finite directory tree whose files carry
an optional content: `none` models a file that exists (it is listed by
readdir and seen by access) but whose read fails, e.g. for permissions.
JavaScript strings are modelled by Lean String, with the string primitives
(startsWith, endsWith, replace of the two fixed regexes, substring, trim,
split on the path separator) expressed over the character list of the
string.  The gray-matter front-matter parser is an external library, out of
scope per the specification, and is passed in as a parameter
`parse : String → Option MatterResult`; `none` models a parse throw.
Node path helpers are modelled for the paths this system produces:
path.isAbsolute is a leading slash (POSIX), path.join of clean segments is
separator concatenation, and path.relative of a path lexically under the
root drops the root prefix.
-/

set_option maxRecDepth 10000

namespace PromptsMcp

/-- listLeads t s decides whether the character list s begins with the
character list t; JS s.startsWith(t) and (via reversal) s.endsWith(t) are
modelled with it. -/
def listLeads : List Char → List Char → Bool
  | [], _ => true
  | _ :: _, [] => false
  | a :: as, b :: bs => (a == b) && listLeads as bs

/-- JS filePath.startsWith(t). -/
def strStartsWith (s t : String) : Bool := listLeads t.data s.data

/-- JS fileName.endsWith(t). -/
def strEndsWith (s t : String) : Bool := listLeads t.data.reverse s.data.reverse

/-- JS s.replace(new RegExp ending-in-md, empty): strip a final ".md". -/
def stripMdExt (s : String) : String :=
  if strEndsWith s ".md" then ⟨s.data.take (s.data.length - 3)⟩ else s

/-- Characters kept by the sanitize regex character class (letters of either
case, digits, hyphen, underscore); every other character is replaced. -/
def sanitizeKeeps (c : Char) : Bool :=
  (decide ('a' ≤ c) && decide (c ≤ 'z')) || (decide ('A' ≤ c) && decide (c ≤ 'Z')) ||
    (decide ('0' ≤ c) && decide (c ≤ '9')) || c == '-' || c == '_'

/-- sanitizeFileName from fileOperations.ts: replace every character outside
the safe class with an underscore, then lowercase (JS replace-then-toLowerCase). -/
def sanitizeFileName (name : String) : String :=
  ⟨(name.data.map (fun c => if sanitizeKeeps c then c else '_')).map Char.toLower⟩

/-- The name computation shared by loadPromptMetadata and removeFromCache in
cache.ts (written inline at both places in the source):
relativePath.replace(md-extension regex, empty).replace(slash regex, underscore). -/
def promptNameOfPath (relativePath : String) : String :=
  ⟨(stripMdExt relativePath).data.map (fun c => if c == '/' then '_' else c)⟩

/-- Whitespace for the JS trim used on previews (ASCII subset; the preview
bodies this system handles are ASCII text). -/
def isJsSpace (c : Char) : Bool := c == ' ' || c == '\t' || c == '\n' || c == '\r'

/-- JS String.prototype.trim. -/
def jsTrim (s : String) : String :=
  ⟨((s.data.dropWhile isJsSpace).reverse.dropWhile isJsSpace).reverse⟩

/-- The preview computation of loadPromptMetadata:
parsed.content.substring(0, 100).replace(newline regex, space).trim() plus the
ellipsis marker. -/
def previewOfBody (body : String) : String :=
  jsTrim ⟨(body.data.take 100).map (fun c => if c == '\n' then ' ' else c)⟩ ++ "..."

/-- Split a character list at every slash (the semantics of splitting a path
string on the separator); used to speak about the path components of the
relative paths the scanner produces. -/
def splitSlash : List Char → List (List Char)
  | [] => [[]]
  | c :: cs =>
    if c = '/' then [] :: splitSlash cs
    else
      match splitSlash cs with
      | [] => [[c]]
      | h :: t => (c :: h) :: t

/-- path.join(relativeDir, entryName) restricted to the clean relative paths
built during the recursive walks: the empty prefix denotes the root itself. -/
def joinRel (pre n : String) : String :=
  if pre = "" then n else ⟨pre.data ++ '/' :: n.data⟩

mutual

/-- A directory tree as seen through fs.readdir / fs.stat.  A file content of
`none` is a file whose read fails. -/
inductive FSTree where
  | file (content : Option String) : FSTree
  | dir (entries : FSEntries) : FSTree

/-- The entries of one directory, in readdir order. -/
inductive FSEntries where
  | nil : FSEntries
  | cons (name : String) (tree : FSTree) (rest : FSEntries) : FSEntries

end

/-- Look up a directory entry by (component) name. -/
def findEntry : FSEntries → List Char → Option FSTree
  | FSEntries.nil, _ => none
  | FSEntries.cons n t rest, comp => if n.data = comp then some t else findEntry rest comp

/-- Walk a component path to a file and return its content;
none models every fs.readFile failure (missing entry, directory, unreadable file). -/
def readAt : FSTree → List (List Char) → Option String
  | FSTree.file c, [] => c
  | FSTree.file _, _ :: _ => none
  | FSTree.dir _, [] => none
  | FSTree.dir es, comp :: rest =>
    match findEntry es comp with
    | some t => readAt t rest
    | none => none

/-- fs.readFile of a root-relative path. -/
def readFile (fs : FSTree) (p : String) : Option String := readAt fs (splitSlash p.data)

/-- fs.access: does an entry (file or directory) exist at this component path. -/
def accessAt : FSTree → List (List Char) → Bool
  | FSTree.file _, [] => true
  | FSTree.file _, _ :: _ => false
  | FSTree.dir _, [] => true
  | FSTree.dir es, comp :: rest =>
    match findEntry es comp with
    | some t => accessAt t rest
    | none => false

/-- Result of the gray-matter collaborator: front-matter attributes plus the
document body (the fields are named data and content as in the library). -/
structure MatterResult where
  data : List (String × String)
  content : String
deriving DecidableEq, Repr

/-- PromptInfo from types.ts. -/
structure PromptInfo where
  name : String
  metadata : List (String × String)
  preview : String
deriving DecidableEq, Repr

/-- The in-memory Map of PromptCache, as its association list in insertion
order. -/
abbrev CacheMap := List (String × PromptInfo)

/-- JS Map.prototype.set: overwrite in place when the key is present,
append otherwise. -/
def mapSet (m : CacheMap) (k : String) (v : PromptInfo) : CacheMap :=
  if m.any (fun e => e.1 == k) then m.map (fun e => if e.1 == k then (k, v) else e)
  else m ++ [(k, v)]

/-- JS Map.prototype.get. -/
def mapGet (m : CacheMap) (k : String) : Option PromptInfo :=
  (m.find? (fun e => e.1 == k)).map (fun e => e.2)

/-- JS Map.prototype.delete (dropping the entry; absent keys are a no-op). -/
def mapDelete (m : CacheMap) (k : String) : CacheMap :=
  m.filter (fun e => !(e.1 == k))

/-- Number of entries stored under a key (1 or 0 for a JS Map). -/
def countKey (m : CacheMap) (k : String) : Nat :=
  (m.filter (fun e => e.1 == k)).length

/-- findMarkdownFiles of cache.ts, over the entries of one directory:
skip entries whose name starts with the hidden marker, recurse into
subdirectories, and collect the root-relative paths of files ending in the
document extension, in traversal order. -/
def scanEntries (pre : String) : FSEntries → List String
  | FSEntries.nil => []
  | FSEntries.cons n t rest =>
    if strStartsWith n "." then scanEntries pre rest
    else
      match t with
      | FSTree.dir es => scanEntries (joinRel pre n) es ++ scanEntries pre rest
      | FSTree.file _ =>
        if strEndsWith n ".md" then joinRel pre n :: scanEntries pre rest
        else scanEntries pre rest

/-- findMarkdownFiles applied to the prompts root (readdir on a non-directory
fails and the failure is swallowed, yielding no files). -/
def findMarkdownFiles (fs : FSTree) : List String :=
  match fs with
  | FSTree.file _ => []
  | FSTree.dir es => scanEntries "" es

/-- path.relative(promptsDir, filePath), modelled for a filePath lexically
under the root: drop the root prefix plus separator, otherwise leave the
path unchanged. -/
def pathRelativeToRoot (root p : String) : String :=
  if strStartsWith p ⟨root.data ++ ['/']⟩ then ⟨p.data.drop (root.data.length + 1)⟩ else p

/-- The absolute-to-relative conversion written inline in updateCacheForFile
and removeFromCache: path.isAbsolute is a leading slash. -/
def resolveRelativePath (promptsDir filePath : String) : String :=
  if strStartsWith filePath "/" then pathRelativeToRoot promptsDir filePath else filePath

/-- loadPromptMetadata of cache.ts: read the file, run gray-matter, derive the
flattened name from the relative path, and build the PromptInfo; any read or
parse failure is caught and yields null (here none). -/
def loadPromptMetadata (parse : String → Option MatterResult) (fs : FSTree)
    (fileName : String) : Option PromptInfo :=
  match readFile fs fileName with
  | none => none
  | some content =>
    match parse content with
    | none => none
    | some parsed =>
      some { name := promptNameOfPath fileName
             metadata := parsed.data
             preview := previewOfBody parsed.content }

/-- updateCacheForFile of cache.ts: no-op unless the path ends in the document
extension; convert an absolute path to a root-relative one; reload the file
and overwrite its record under the freshly computed name, or leave the cache
unchanged when the load fails. -/
def updateCacheForFile (parse : String → Option MatterResult) (promptsDir : String)
    (fs : FSTree) (cache : CacheMap) (filePath : String) : CacheMap :=
  if !strEndsWith filePath ".md" then cache
  else
    let relativePath := resolveRelativePath promptsDir filePath
    match loadPromptMetadata parse fs relativePath with
    | none => cache
    | some metadata => mapSet cache metadata.name metadata

/-- removeFromCache of cache.ts: same extension guard and relative-path
conversion, then delete the key computed by the same path transformation the
loader uses, without reading the file. -/
def removeFromCache (promptsDir : String) (cache : CacheMap) (filePath : String) : CacheMap :=
  if !strEndsWith filePath ".md" then cache
  else
    let relativePath := resolveRelativePath promptsDir filePath
    let name := promptNameOfPath relativePath
    mapDelete cache name

/-- initializeCache of cache.ts: scan the tree, clear the map, and load every
discovered path through updateCacheForFile.  The previous cache contents are
discarded (the clear); ensurePromptsDir only touches the directory itself and
is not reflected in the resulting map. -/
def initializeCache (parse : String → Option MatterResult) (promptsDir : String)
    (fs : FSTree) (_cache : CacheMap) : CacheMap :=
  (findMarkdownFiles fs).foldl (fun c file => updateCacheForFile parse promptsDir fs c file) []

/-- The recursive searchDir closure of findPromptFile in fileOperations.ts:
walk the entries skipping hidden ones; for each document file compare the
extension-stripped relative path with the requested name, first exactly and
then through sanitizeFileName; return the first hit. -/
def searchEntries (name pre : String) : FSEntries → Option String
  | FSEntries.nil => none
  | FSEntries.cons n t rest =>
    if strStartsWith n "." then searchEntries name pre rest
    else
      match t with
      | FSTree.dir es =>
        match searchEntries name (joinRel pre n) es with
        | some found => some found
        | none => searchEntries name pre rest
      | FSTree.file _ =>
        if strEndsWith n ".md" then
          let relativePath := joinRel pre n
          let pathWithoutExt := stripMdExt relativePath
          if pathWithoutExt = name then some relativePath
          else if sanitizeFileName pathWithoutExt = sanitizeFileName name then some relativePath
          else searchEntries name pre rest
        else searchEntries name pre rest

/-- findPromptFile of fileOperations.ts: first probe the root directly for
sanitizedName plus extension (fs.access succeeds for any entry), then fall
back to the recursive search.  Paths returned are root-relative here, where
the source returns the same file as an absolute path. -/
def findPromptFile (fs : FSTree) (name : String) : Option String :=
  let sanitizedName := sanitizeFileName name
  let targetFileName := sanitizedName ++ ".md"
  if accessAt fs [targetFileName.data] then some targetFileName
  else
    match fs with
    | FSTree.file _ => none
    | FSTree.dir es => searchEntries name "" es

/-- Outcome of readPrompt: the file content, or the single thrown error.
Both the resolver-miss branch and the read-failure branch of the source throw
the same templated error, so both map to notFound. -/
inductive ReadPromptResult where
  | ok (content : String) : ReadPromptResult
  | notFound : ReadPromptResult
deriving DecidableEq, Repr

/-- readPrompt of fileOperations.ts: resolve the name, then read the file;
resolver failure and read failure both raise the identical not-found error. -/
def readPrompt (fs : FSTree) (name : String) : ReadPromptResult :=
  match findPromptFile fs name with
  | none => ReadPromptResult.notFound
  | some filePath =>
    match readFile fs filePath with
    | some content => ReadPromptResult.ok content
    | none => ReadPromptResult.notFound

/-- The predicate the recursive search phase of findPromptFile tests one file
against: exact match of the extension-stripped relative path, or equality of
the sanitized forms. -/
def resolverMatch (name rel : String) : Bool :=
  (stripMdExt rel == name) || (sanitizeFileName (stripMdExt rel) == sanitizeFileName name)

/-- No path separator occurs in the component. -/
def slashFree : List Char → Bool
  | [] => true
  | c :: cs => (c != '/') && slashFree cs

mutual

/-- Realistic directory trees: every entry name is nonempty and free of the
path separator (a filesystem guarantees both). -/
def validTree : FSTree → Bool
  | FSTree.file _ => true
  | FSTree.dir es => validEntries es

def validEntries : FSEntries → Bool
  | FSEntries.nil => true
  | FSEntries.cons n t rest =>
    (!n.data.isEmpty) && slashFree n.data && validTree t && validEntries rest

end

/-- A good path component: nonempty, separator-free, not starting with the
hidden marker. -/
def goodComp (c : List Char) : Bool :=
  (!c.isEmpty) && slashFree c && (!listLeads ['.'] c)

/-- Some path component starts with the hidden-file marker. -/
def hasHiddenComponent (p : String) : Bool :=
  (splitSlash p.data).any (fun c => listLeads ['.'] c)

/-! Concrete artifacts used by witnesses and counterexamples. -/

/-- A parse function for concrete runs: no front matter, the whole file is the
body (gray-matter on a file with no marker). -/
def parseBody : String → Option MatterResult := fun s => some { data := [], content := s }

/-- Root containing team_review.md and team/review.md. -/
def treeClash : FSTree :=
  FSTree.dir (FSEntries.cons "team_review.md" (FSTree.file (some "A"))
    (FSEntries.cons "team"
      (FSTree.dir (FSEntries.cons "review.md" (FSTree.file (some "B")) FSEntries.nil))
      FSEntries.nil))

/-- Root containing only team/review.md. -/
def treeNested : FSTree :=
  FSTree.dir (FSEntries.cons "team"
    (FSTree.dir (FSEntries.cons "review.md" (FSTree.file (some "B")) FSEntries.nil))
    FSEntries.nil)

/-- Root containing one file x.md that exists but cannot be read. -/
def treeUnreadable : FSTree :=
  FSTree.dir (FSEntries.cons "x.md" (FSTree.file none) FSEntries.nil)

/-- Root containing a/b.md and a_b.md, which flatten to the same name. -/
def treeFlat : FSTree :=
  FSTree.dir (FSEntries.cons "a"
    (FSTree.dir (FSEntries.cons "b.md" (FSTree.file (some "nested body")) FSEntries.nil))
    (FSEntries.cons "a_b.md" (FSTree.file (some "flat body")) FSEntries.nil))

/-- Root containing a readable a.md and an unreadable b.md. -/
def treeMix : FSTree :=
  FSTree.dir (FSEntries.cons "a.md" (FSTree.file (some "Hello"))
    (FSEntries.cons "b.md" (FSTree.file none) FSEntries.nil))

/-- Root containing .hidden/x.md and visible.md. -/
def treeHidden : FSTree :=
  FSTree.dir (FSEntries.cons ".hidden"
    (FSTree.dir (FSEntries.cons "x.md" (FSTree.file (some "C")) FSEntries.nil))
    (FSEntries.cons "visible.md" (FSTree.file (some "D")) FSEntries.nil))

/-- The two records produced from treeFlat: a/b.md and a_b.md both flatten to
the name a_b. -/
def recNested : PromptInfo := { name := "a_b", metadata := [], preview := "nested body..." }

def recFlat : PromptInfo := { name := "a_b", metadata := [], preview := "flat body..." }

/-! Supporting lemmas. -/

theorem listLeads_append {t r : List Char} (x : List Char) (h : listLeads t r = true) :
    listLeads t (r ++ x) = true := by
  induction t generalizing r with
  | nil => rfl
  | cons a as ih =>
    cases r with
    | nil => simp [listLeads] at h
    | cons b bs =>
      simp only [listLeads, Bool.and_eq_true] at h ⊢
      exact ⟨h.1, ih h.2⟩

theorem strEndsWith_joinRel {pre n : String} (h : strEndsWith n ".md" = true) :
    strEndsWith (joinRel pre n) ".md" = true := by
  unfold joinRel
  split
  · exact h
  · show listLeads _ (pre.data ++ '/' :: n.data).reverse = true
    have : (pre.data ++ '/' :: n.data).reverse = n.data.reverse ++ ('/' :: pre.data.reverse) := by
      simp
    rw [this]
    exact listLeads_append _ h

theorem splitSlash_ne_nil (l : List Char) : splitSlash l ≠ [] := by
  induction l with
  | nil => simp [splitSlash]
  | cons c cs ih =>
    by_cases h : c = '/'
    · simp [splitSlash, h]
    · simp only [splitSlash, if_neg h]
      cases hcs : splitSlash cs with
      | nil => simp
      | cons a b => simp

theorem splitSlash_append_slash (a b : List Char) :
    splitSlash (a ++ '/' :: b) = splitSlash a ++ splitSlash b := by
  induction a with
  | nil => simp [splitSlash]
  | cons c cs ih =>
    by_cases h : c = '/'
    · simp [splitSlash, h, ih]
    · simp only [List.cons_append, splitSlash, List.append_eq, if_neg h]
      cases hcs : splitSlash cs with
      | nil => exact absurd hcs (splitSlash_ne_nil cs)
      | cons x xs => rw [ih, hcs]; simp

theorem splitSlash_of_slashFree {l : List Char} (h : slashFree l = true) :
    splitSlash l = [l] := by
  induction l with
  | nil => rfl
  | cons c cs ih =>
    simp only [slashFree, Bool.and_eq_true, bne_iff_ne, ne_eq] at h
    simp only [splitSlash, if_neg h.1, ih h.2]

theorem data_joinRel (pre n : String) :
    (joinRel pre n).data = if pre = "" then n.data else pre.data ++ '/' :: n.data := by
  unfold joinRel
  split <;> rfl

theorem splitSlash_joinRel (pre n : String) :
    splitSlash (joinRel pre n).data =
      if pre = "" then splitSlash n.data else splitSlash pre.data ++ splitSlash n.data := by
  rw [data_joinRel]
  split
  · rfl
  · exact splitSlash_append_slash _ _

theorem joinRel_all_good {pre : String} {n : String}
    (hpre : pre = "" ∨ ((splitSlash pre.data).all goodComp = true))
    (hn : goodComp n.data = true) :
    (splitSlash (joinRel pre n).data).all goodComp = true := by
  have hfree : slashFree n.data = true := by
    simp only [goodComp, Bool.and_eq_true] at hn
    exact hn.1.2
  rcases hpre with hpre | hpre
  · rw [splitSlash_joinRel, if_pos hpre, splitSlash_of_slashFree hfree]
    simp [hn]
  · by_cases hemp : pre = ""
    · rw [splitSlash_joinRel, if_pos hemp, splitSlash_of_slashFree hfree]
      simp [hn]
    · rw [splitSlash_joinRel, if_neg hemp, List.all_append, splitSlash_of_slashFree hfree]
      simp [hpre, hn]

theorem goodComp_of_entry {n : String} (hne : n.data.isEmpty = false)
    (hfree : slashFree n.data = true) (hh : strStartsWith n "." = false) :
    goodComp n.data = true := by
  have : listLeads ['.'] n.data = false := hh
  simp [goodComp, hne, hfree, this]

theorem scanEntries_cons_dir (pre n : String) (es rest : FSEntries) :
    scanEntries pre (FSEntries.cons n (FSTree.dir es) rest) =
      if strStartsWith n "." then scanEntries pre rest
      else scanEntries (joinRel pre n) es ++ scanEntries pre rest := by
  rw [scanEntries.eq_def]

theorem scanEntries_cons_file (pre n : String) (c : Option String) (rest : FSEntries) :
    scanEntries pre (FSEntries.cons n (FSTree.file c) rest) =
      if strStartsWith n "." then scanEntries pre rest
      else
        if strEndsWith n ".md" then joinRel pre n :: scanEntries pre rest
        else scanEntries pre rest := by
  rw [scanEntries.eq_def]

theorem scanEntries_cons_hidden (pre n : String) (t : FSTree) (rest : FSEntries)
    (h : strStartsWith n "." = true) :
    scanEntries pre (FSEntries.cons n t rest) = scanEntries pre rest := by
  cases t with
  | file c => rw [scanEntries_cons_file, if_pos h]
  | dir es => rw [scanEntries_cons_dir, if_pos h]

theorem searchEntries_cons_dir (name pre n : String) (es rest : FSEntries) :
    searchEntries name pre (FSEntries.cons n (FSTree.dir es) rest) =
      if strStartsWith n "." then searchEntries name pre rest
      else
        match searchEntries name (joinRel pre n) es with
        | some found => some found
        | none => searchEntries name pre rest := by
  rw [searchEntries.eq_def]

theorem searchEntries_cons_file (name pre n : String) (c : Option String) (rest : FSEntries) :
    searchEntries name pre (FSEntries.cons n (FSTree.file c) rest) =
      if strStartsWith n "." then searchEntries name pre rest
      else
        if strEndsWith n ".md" then
          if stripMdExt (joinRel pre n) = name then some (joinRel pre n)
          else if sanitizeFileName (stripMdExt (joinRel pre n)) = sanitizeFileName name then
            some (joinRel pre n)
          else searchEntries name pre rest
        else searchEntries name pre rest := by
  rw [searchEntries.eq_def]

theorem searchEntries_cons_hidden (name pre n : String) (t : FSTree) (rest : FSEntries)
    (h : strStartsWith n "." = true) :
    searchEntries name pre (FSEntries.cons n t rest) = searchEntries name pre rest := by
  cases t with
  | file c => rw [searchEntries_cons_file, if_pos h]
  | dir es => rw [searchEntries_cons_dir, if_pos h]

theorem scanEntries_good (pre : String) (es : FSEntries)
    (hval : validEntries es = true)
    (hpre : pre = "" ∨ ((splitSlash pre.data).all goodComp = true)) :
    ∀ p ∈ scanEntries pre es,
      ((splitSlash p.data).all goodComp = true) ∧ strEndsWith p ".md" = true := by
  induction pre, es using scanEntries.induct with
  | case1 pre => intro p hp; simp [scanEntries] at hp
  | case2 pre n t rest hhid ih =>
    intro p hp
    simp only [validEntries, Bool.and_eq_true] at hval
    rw [scanEntries_cons_hidden pre n t rest hhid] at hp
    exact ih hval.2 hpre p hp
  | case3 pre n rest hhid es ihdir ihrest =>
    intro p hp
    simp only [validEntries, Bool.and_eq_true, Bool.not_eq_true'] at hval
    obtain ⟨⟨⟨hne, hfree⟩, htree⟩, hrest⟩ := hval
    have hgood : goodComp n.data = true :=
      goodComp_of_entry hne hfree (by simpa using hhid)
    rw [scanEntries_cons_dir, if_neg hhid] at hp
    simp only [List.mem_append] at hp
    rcases hp with hp | hp
    · exact ihdir htree (Or.inr (joinRel_all_good hpre hgood)) p hp
    · exact ihrest hrest hpre p hp
  | case4 pre n rest hhid content hmd ih =>
    intro p hp
    simp only [validEntries, Bool.and_eq_true, Bool.not_eq_true'] at hval
    obtain ⟨⟨⟨hne, hfree⟩, _⟩, hrest⟩ := hval
    have hgood : goodComp n.data = true :=
      goodComp_of_entry hne hfree (by simpa using hhid)
    rw [scanEntries_cons_file, if_neg hhid] at hp
    simp only [if_pos hmd, List.mem_cons] at hp
    rcases hp with hp | hp
    · subst hp
      exact ⟨joinRel_all_good hpre hgood, strEndsWith_joinRel hmd⟩
    · exact ih hrest hpre p hp
  | case5 pre n rest hhid content hmd ih =>
    intro p hp
    simp only [validEntries, Bool.and_eq_true] at hval
    rw [scanEntries_cons_file, if_neg hhid] at hp
    simp only [if_neg hmd] at hp
    exact ih hval.2 hpre p hp

theorem findMarkdownFiles_good {fs : FSTree} (hval : validTree fs = true) :
    ∀ p ∈ findMarkdownFiles fs,
      ((splitSlash p.data).all goodComp = true) ∧ strEndsWith p ".md" = true := by
  cases fs with
  | file c => intro p hp; simp [findMarkdownFiles] at hp
  | dir es => exact scanEntries_good "" es hval (Or.inl rfl)

theorem not_slash_of_all_good {p : String}
    (h : (splitSlash p.data).all goodComp = true) : strStartsWith p "/" = false := by
  show listLeads ['/'] p.data = false
  cases hd : p.data with
  | nil => rfl
  | cons c cs =>
    by_cases hc : c = '/'
    · exfalso
      rw [hd] at h
      subst hc
      simp only [splitSlash, if_pos rfl, List.all_cons, Bool.and_eq_true] at h
      simp [goodComp] at h
    · simp [listLeads, hc, Ne.symm hc]

theorem not_hidden_of_all_good {p : String}
    (h : (splitSlash p.data).all goodComp = true) : hasHiddenComponent p = false := by
  unfold hasHiddenComponent
  rw [List.any_eq_false]
  intro c hc
  have := (List.all_eq_true.mp h) c hc
  simp only [goodComp, Bool.and_eq_true, Bool.not_eq_true'] at this
  simp [this.2]

theorem searchEntries_eq_find (name pre : String) (es : FSEntries) :
    searchEntries name pre es = (scanEntries pre es).find? (resolverMatch name) := by
  induction pre, es using scanEntries.induct with
  | case1 pre => rfl
  | case2 pre n t rest hhid ih =>
    rw [searchEntries_cons_hidden name pre n t rest hhid, scanEntries_cons_hidden pre n t rest hhid,
      ih]
  | case3 pre n rest hhid es ihdir ihrest =>
    rw [searchEntries_cons_dir, if_neg hhid, scanEntries_cons_dir, if_neg hhid]
    rw [List.find?_append, ihdir, ihrest]
    cases (scanEntries (joinRel pre n) es).find? (resolverMatch name) <;> simp [Option.or]
  | case4 pre n rest hhid content hmd ih =>
    rw [searchEntries_cons_file, if_neg hhid, scanEntries_cons_file, if_neg hhid]
    simp only [if_pos hmd]
    by_cases h1 : stripMdExt (joinRel pre n) = name
    · rw [if_pos h1, List.find?_cons_of_pos _ (by simp [resolverMatch, h1])]
    · rw [if_neg h1]
      by_cases h2 : sanitizeFileName (stripMdExt (joinRel pre n)) = sanitizeFileName name
      · rw [if_pos h2, List.find?_cons_of_pos _ (by simp [resolverMatch, h2])]
      · rw [if_neg h2, List.find?_cons_of_neg _ (by simp [resolverMatch, h1, h2]), ih]
  | case5 pre n rest hhid content hmd ih =>
    rw [searchEntries_cons_file, if_neg hhid, scanEntries_cons_file, if_neg hhid]
    simp only [if_neg hmd]
    exact ih

theorem find_map_replace_ne (m : CacheMap) (k q : String) (v : PromptInfo) (hqk : q ≠ k) :
    (m.map (fun e => if e.1 == k then (k, v) else e)).find? (fun e => e.1 == q) =
      m.find? (fun e => e.1 == q) := by
  induction m with
  | nil => rfl
  | cons e rest ih =>
    rw [List.map_cons]
    by_cases he : e.1 = k
    · have hfe : (if (e.1 == k) = true then (k, v) else e) = (k, v) := by simp [he]
      rw [hfe, List.find?_cons_of_neg _ (by simp [Ne.symm hqk]),
        List.find?_cons_of_neg _ (by simp [he, Ne.symm hqk]), ih]
    · have hfe : (if (e.1 == k) = true then (k, v) else e) = e := by simp [he]
      rw [hfe]
      by_cases hq : e.1 = q
      · rw [List.find?_cons_of_pos _ (by simp [hq]), List.find?_cons_of_pos _ (by simp [hq])]
      · rw [List.find?_cons_of_neg _ (by simp [hq]), List.find?_cons_of_neg _ (by simp [hq]), ih]

theorem find_map_replace_eq (m : CacheMap) (k : String) (v : PromptInfo)
    (hany : m.any (fun e => e.1 == k) = true) :
    (m.map (fun e => if e.1 == k then (k, v) else e)).find? (fun e => e.1 == k) =
      some (k, v) := by
  induction m with
  | nil => simp at hany
  | cons e rest ih =>
    rw [List.map_cons]
    by_cases he : e.1 = k
    · have hfe : (if (e.1 == k) = true then (k, v) else e) = (k, v) := by simp [he]
      rw [hfe, List.find?_cons_of_pos _ (by simp)]
    · have hfe : (if (e.1 == k) = true then (k, v) else e) = e := by simp [he]
      rw [hfe, List.find?_cons_of_neg _ (by simp [he])]
      apply ih
      simp only [List.any_cons, Bool.or_eq_true] at hany
      rcases hany with h | h
      · exact absurd (by simpa using h) he
      · exact h

theorem mapGet_mapSet (m : CacheMap) (k q : String) (v : PromptInfo) :
    mapGet (mapSet m k v) q = if q = k then some v else mapGet m q := by
  unfold mapGet mapSet
  by_cases hany : m.any (fun e => e.1 == k) = true
  · rw [if_pos hany]
    by_cases hq : q = k
    · subst hq
      rw [find_map_replace_eq m q v hany, if_pos rfl]
      rfl
    · rw [find_map_replace_ne m k q v hq, if_neg hq]
  · rw [if_neg hany, List.find?_append]
    have hanyf : m.any (fun e => e.1 == k) = false := Bool.eq_false_iff.mpr hany
    have hnone : m.find? (fun e => e.1 == k) = none := by
      rw [List.find?_eq_none]
      intro x hx
      exact List.any_eq_false.mp hanyf x hx
    by_cases hq : q = k
    · subst hq
      rw [hnone]
      simp
    · have : List.find? (fun e => e.1 == q) [(k, v)] = none := by
        simp [Ne.symm hq]
      rw [this, if_neg hq]
      cases m.find? (fun e => e.1 == q) <;> simp [Option.or]

theorem mem_mapSet {m : CacheMap} {k : String} {v : PromptInfo} {e : String × PromptInfo}
    (h : e ∈ mapSet m k v) : e ∈ m ∨ e = (k, v) := by
  unfold mapSet at h
  by_cases hany : m.any (fun x => x.1 == k) = true
  · rw [if_pos hany] at h
    obtain ⟨a, ha, hae⟩ := List.mem_map.mp h
    by_cases hk : a.1 = k
    · right
      rw [if_pos (by simp [hk])] at hae
      exact hae.symm
    · left
      rw [if_neg (by simp [hk])] at hae
      exact hae ▸ ha
  · rw [if_neg hany] at h
    rcases List.mem_append.mp h with h | h
    · exact Or.inl h
    · exact Or.inr (by simpa using h)

theorem countKey_filter_map_replace (m : CacheMap) (k : String) (v : PromptInfo) :
    ((m.map (fun e => if e.1 == k then (k, v) else e)).filter (fun e => e.1 == k)).length =
      (m.filter (fun e => e.1 == k)).length := by
  induction m with
  | nil => rfl
  | cons e rest ih =>
    rw [List.map_cons]
    by_cases he : e.1 = k
    · have hfe : (if (e.1 == k) = true then (k, v) else e) = (k, v) := by simp [he]
      rw [hfe, List.filter_cons_of_pos (by simp), List.filter_cons_of_pos (by simp [he]),
        List.length_cons, List.length_cons, ih]
    · have hfe : (if (e.1 == k) = true then (k, v) else e) = e := by simp [he]
      rw [hfe, List.filter_cons_of_neg (by simp [he]), List.filter_cons_of_neg (by simp [he])]
      exact ih

theorem countKey_mapSet_self (m : CacheMap) (k : String) (v : PromptInfo)
    (h : countKey m k ≤ 1) : countKey (mapSet m k v) k = 1 := by
  have hlen : (List.filter (fun e => e.1 == k) m).length ≤ 1 := h
  unfold countKey mapSet
  by_cases hany : m.any (fun e => e.1 == k) = true
  · rw [if_pos hany, countKey_filter_map_replace]
    obtain ⟨x, hx, hpx⟩ := List.any_eq_true.mp hany
    have hmem : x ∈ m.filter (fun e => e.1 == k) := List.mem_filter.mpr ⟨hx, hpx⟩
    have hpos : 0 < (m.filter (fun e => e.1 == k)).length :=
      List.length_pos.mpr (List.ne_nil_of_mem hmem)
    omega
  · rw [if_neg hany, List.filter_append]
    have hanyf : m.any (fun e => e.1 == k) = false := Bool.eq_false_iff.mpr hany
    have : m.filter (fun e => e.1 == k) = [] := by
      rw [List.filter_eq_nil_iff]
      exact List.any_eq_false.mp hanyf
    rw [this]
    simp

theorem mapGet_mapDelete_self (m : CacheMap) (k : String) :
    mapGet (mapDelete m k) k = none := by
  unfold mapGet mapDelete
  have hnone : (m.filter (fun e => !(e.1 == k))).find? (fun e => e.1 == k) = none := by
    rw [List.find?_eq_none]
    intro x hx
    have := (List.mem_filter.mp hx).2
    simpa using this
  rw [hnone]
  rfl

theorem mapDelete_of_absent {m : CacheMap} {k : String} (h : mapGet m k = none) :
    mapDelete m k = m := by
  have hfind : m.find? (fun e => e.1 == k) = none := by
    unfold mapGet at h
    cases hf : m.find? (fun e => e.1 == k) with
    | none => rfl
    | some x => rw [hf] at h; simp at h
  unfold mapDelete
  rw [List.filter_eq_self]
  intro a ha
  have := List.find?_eq_none.mp hfind a ha
  simpa using this

theorem updateCacheForFile_of_md {parse : String → Option MatterResult} {promptsDir : String}
    {fs : FSTree} {cache : CacheMap} {filePath : String}
    (hmd : strEndsWith filePath ".md" = true) :
    updateCacheForFile parse promptsDir fs cache filePath =
      match loadPromptMetadata parse fs (resolveRelativePath promptsDir filePath) with
      | none => cache
      | some metadata => mapSet cache metadata.name metadata := by
  unfold updateCacheForFile
  rw [if_neg (by simp [hmd])]

theorem removeFromCache_of_md {promptsDir : String} {cache : CacheMap} {filePath : String}
    (hmd : strEndsWith filePath ".md" = true) :
    removeFromCache promptsDir cache filePath =
      mapDelete cache (promptNameOfPath (resolveRelativePath promptsDir filePath)) := by
  unfold removeFromCache
  rw [if_neg (by simp [hmd])]

theorem loadPromptMetadata_name {parse : String → Option MatterResult} {fs : FSTree}
    {fileName : String} {info : PromptInfo}
    (h : loadPromptMetadata parse fs fileName = some info) :
    info.name = promptNameOfPath fileName := by
  unfold loadPromptMetadata at h
  cases hr : readFile fs fileName with
  | none =>
    simp only [hr] at h
    exact Option.noConfusion h
  | some content =>
    simp only [hr] at h
    cases hp : parse content with
    | none =>
      simp only [hp] at h
      exact Option.noConfusion h
    | some parsed =>
      simp only [hp, Option.some.injEq] at h
      rw [← h]

/-- Every entry of the cache built by the initial fold comes from a scanned
path whose load succeeded, and is keyed by the name of the record it holds. -/
theorem foldl_update_entries (parse : String → Option MatterResult) (promptsDir : String)
    (fs : FSTree) (ps : List String) (acc : CacheMap) :
    ∀ kv ∈ ps.foldl (fun c file => updateCacheForFile parse promptsDir fs c file) acc,
      kv ∈ acc ∨ ∃ p ∈ ps,
        loadPromptMetadata parse fs (resolveRelativePath promptsDir p) = some kv.2 ∧
          kv.1 = kv.2.name := by
  induction ps generalizing acc with
  | nil => intro kv hkv; exact Or.inl hkv
  | cons p rest ih =>
    intro kv hkv
    rw [List.foldl_cons] at hkv
    rcases ih (updateCacheForFile parse promptsDir fs acc p) kv hkv with hacc | ⟨q, hq, hload⟩
    · by_cases hmd : strEndsWith p ".md" = true
      · rw [updateCacheForFile_of_md hmd] at hacc
        cases hl : loadPromptMetadata parse fs (resolveRelativePath promptsDir p) with
        | none =>
          rw [hl] at hacc
          exact Or.inl (hacc : kv ∈ acc)
        | some i =>
          rw [hl] at hacc
          have hacc2 : kv ∈ mapSet acc i.name i := hacc
          rcases mem_mapSet hacc2 with hmem | heq
          · exact Or.inl hmem
          · refine Or.inr ⟨p, by simp, ?_, ?_⟩
            · rw [heq]; exact hl
            · rw [heq]
      · unfold updateCacheForFile at hacc
        rw [if_pos (by simp [Bool.eq_false_iff.mpr hmd])] at hacc
        exact Or.inl hacc
    · exact Or.inr ⟨q, by simp [hq], hload⟩

theorem mapGet_ne_none_mono {cache : CacheMap} {k : String}
    (parse : String → Option MatterResult) (promptsDir : String) (fs : FSTree)
    (ps : List String) (h : mapGet cache k ≠ none) :
    mapGet (ps.foldl (fun c file => updateCacheForFile parse promptsDir fs c file) cache) k ≠
      none := by
  induction ps generalizing cache with
  | nil => exact h
  | cons p rest ih =>
    rw [List.foldl_cons]
    apply ih
    by_cases hmd : strEndsWith p ".md" = true
    · rw [updateCacheForFile_of_md hmd]
      cases hl : loadPromptMetadata parse fs (resolveRelativePath promptsDir p) with
      | none => exact h
      | some i =>
        show mapGet (mapSet cache i.name i) k ≠ none
        rw [mapGet_mapSet]
        by_cases hk : k = i.name
        · simp [hk]
        · rw [if_neg hk]; exact h
    · unfold updateCacheForFile
      rw [if_pos (by simp [Bool.eq_false_iff.mpr hmd])]
      exact h

theorem mapGet_foldl_of_load (parse : String → Option MatterResult) (promptsDir : String)
    (fs : FSTree) (ps : List String) (acc : CacheMap) {p : String} {i : PromptInfo}
    (hp : p ∈ ps) (hmd : strEndsWith p ".md" = true)
    (hload : loadPromptMetadata parse fs (resolveRelativePath promptsDir p) = some i) :
    mapGet (ps.foldl (fun c file => updateCacheForFile parse promptsDir fs c file) acc)
      i.name ≠ none := by
  induction ps generalizing acc with
  | nil => simp at hp
  | cons q rest ih =>
    rw [List.foldl_cons]
    rcases List.mem_cons.mp hp with hq | hq
    · subst hq
      apply mapGet_ne_none_mono
      rw [updateCacheForFile_of_md hmd, hload]
      show mapGet (mapSet acc i.name i) i.name ≠ none
      rw [mapGet_mapSet, if_pos rfl]
      simp
    · exact ih _ hq

theorem findPromptFile_eq (fs : FSTree) (name : String) :
    findPromptFile fs name =
      if accessAt fs [(sanitizeFileName name ++ ".md").data] then
        some (sanitizeFileName name ++ ".md")
      else
        match fs with
        | FSTree.file _ => none
        | FSTree.dir es => searchEntries name "" es := rfl

theorem findPromptFile_chr (fs : FSTree) (name : String) :
    findPromptFile fs name =
      if accessAt fs [(sanitizeFileName name ++ ".md").data] then
        some (sanitizeFileName name ++ ".md")
      else (findMarkdownFiles fs).find? (resolverMatch name) := by
  by_cases hacc : accessAt fs [(sanitizeFileName name ++ ".md").data] = true
  · rw [findPromptFile_eq, if_pos hacc, if_pos hacc]
  · rw [findPromptFile_eq, if_neg hacc, if_neg hacc]
    cases fs with
    | file c => rfl
    | dir es => exact searchEntries_eq_find name "" es

/-! Claim theorems. -/

/-- C1, counterexample: the claim says that resolving the extension-stripped
relative path of a stored file returns that file.  With team_review.md and
team/review.md both stored, resolving "team/review" hits the direct root
probe for the sanitized name and returns team_review.md, not the requested
team/review.md. -/
theorem c1_counterexample :
    findPromptFile treeClash "team/review" = some "team_review.md" ∧
      some "team_review.md" ≠ some ("team/review.md" : String) := by
  constructor
  · decide
  · decide

/-- C1 (amended): resolution succeeds exactly when the root has an entry
named sanitize(name) plus the document extension (fast path), or some
visible stored document file matches the requested name exactly or by
sanitized form on its extension-stripped relative path; when the fast path
misses, the result is the first match of the recursive walk, which is a
scanned file satisfying the exact-or-sanitized predicate (not necessarily
the exactly matching file), and a name matching no file in either way
fails. -/
theorem c1_resolver_two_phase (fs : FSTree) (name : String) :
    ((findPromptFile fs name).isSome ↔
      accessAt fs [(sanitizeFileName name ++ ".md").data] = true ∨
        ∃ rel ∈ findMarkdownFiles fs, resolverMatch name rel = true)
    ∧ (accessAt fs [(sanitizeFileName name ++ ".md").data] = false →
        findPromptFile fs name = (findMarkdownFiles fs).find? (resolverMatch name))
    ∧ (∀ rel, accessAt fs [(sanitizeFileName name ++ ".md").data] = false →
        findPromptFile fs name = some rel →
        rel ∈ findMarkdownFiles fs ∧ resolverMatch name rel = true) := by
  refine ⟨?_, ?_, ?_⟩
  · rw [findPromptFile_chr]
    by_cases hacc : accessAt fs [(sanitizeFileName name ++ ".md").data] = true
    · rw [if_pos hacc]
      exact ⟨fun _ => Or.inl hacc, fun _ => rfl⟩
    · rw [if_neg hacc]
      constructor
      · intro h
        obtain ⟨x, hx, hpx⟩ := List.find?_isSome.mp h
        exact Or.inr ⟨x, hx, hpx⟩
      · intro h
        rcases h with h | ⟨rel, hrel, hm⟩
        · exact absurd h hacc
        · exact List.find?_isSome.mpr ⟨rel, hrel, hm⟩
  · intro haccf
    rw [findPromptFile_chr, if_neg (Bool.eq_false_iff.mp haccf)]
  · intro rel haccf heq
    rw [findPromptFile_chr, if_neg (Bool.eq_false_iff.mp haccf)] at heq
    exact ⟨List.mem_of_find?_eq_some heq, List.find?_some heq⟩

/-- C1, witness: on a root holding only team/review.md, the fast path misses
and resolution is the first exact-or-sanitized match of the walk. -/
theorem c1_witness :
    accessAt treeNested [(sanitizeFileName "team/review" ++ ".md").data] = false ∧
      findPromptFile treeNested "team/review" =
        (findMarkdownFiles treeNested).find? (resolverMatch "team/review") :=
  ⟨by decide, (c1_resolver_two_phase treeNested "team/review").2.1 (by decide)⟩

/-- C3: bulk load fully replaces the map contents: its result does not depend
on the previous cache state at all (the map is cleared first), so a second
run over the unchanged tree returns exactly the contents of the first. -/
theorem c3_bulk_load_idempotent (parse : String → Option MatterResult) (promptsDir : String)
    (fs : FSTree) :
    (∀ cache, initializeCache parse promptsDir fs (initializeCache parse promptsDir fs cache) =
      initializeCache parse promptsDir fs cache)
    ∧ ∀ m1 m2 : CacheMap,
        initializeCache parse promptsDir fs m1 = initializeCache parse promptsDir fs m2 :=
  ⟨fun _ => rfl, fun _ _ => rfl⟩

/-- C10: for a path that does not end in the document extension, both
upsertFromPath (updateCacheForFile) and removeFromPath (removeFromCache)
leave the cache mapping entirely unchanged. -/
theorem c10_non_md_noop (parse : String → Option MatterResult) (promptsDir : String)
    (fs : FSTree) (cache : CacheMap) (p : String)
    (h : strEndsWith p ".md" = false) :
    updateCacheForFile parse promptsDir fs cache p = cache ∧
      removeFromCache promptsDir cache p = cache := by
  constructor
  · unfold updateCacheForFile
    rw [if_pos (by simp [h])]
  · unfold removeFromCache
    rw [if_pos (by simp [h])]

/-- C10, witness: a .txt path upserts and removes to the unchanged cache. -/
theorem c10_witness :
    strEndsWith "notes.txt" ".md" = false ∧
      (updateCacheForFile parseBody "/p" treeNested [] "notes.txt" = [] ∧
        removeFromCache "/p" [] "notes.txt" = []) :=
  ⟨by decide, c10_non_md_noop parseBody "/p" treeNested [] "notes.txt" (by decide)⟩

/-- C2: every loaded record's canonical name is the relative path with the
.md extension stripped and every path separator replaced by an underscore;
the nested path a/b.md yields the flat name a_b. -/
theorem c2_canonical_name :
    (∀ (parse : String → Option MatterResult) (fs : FSTree) (p : String) (i : PromptInfo),
      loadPromptMetadata parse fs p = some i → i.name = promptNameOfPath p)
    ∧ promptNameOfPath "a/b.md" = "a_b" :=
  ⟨fun _ _ _ _ h => loadPromptMetadata_name h, by decide⟩

/-- C2, witness: loading treeFlat at a/b.md produces the record named a_b. -/
theorem c2_witness :
    loadPromptMetadata parseBody treeFlat "a/b.md" =
        some { name := "a_b", metadata := [], preview := "nested body..." } ∧
      ({ name := "a_b", metadata := [], preview := "nested body..." } : PromptInfo).name =
        promptNameOfPath "a/b.md" :=
  ⟨by decide, c2_canonical_name.1 parseBody treeFlat "a/b.md" _ (by decide)⟩

/-- C5: removeFromPath computes its key by the same path transformation the
loader uses for upsert (promptNameOfPath after the same absolute-to-relative
conversion, with no file read involved), deleting an absent key leaves the
cache unchanged, and an upsert of a document path followed by a remove of the
same path leaves the derived name absent. -/
theorem c5_remove_consistency (parse : String → Option MatterResult) (promptsDir : String)
    (fs : FSTree) (cache : CacheMap) (p : String) :
    (∀ i, loadPromptMetadata parse fs (resolveRelativePath promptsDir p) = some i →
      i.name = promptNameOfPath (resolveRelativePath promptsDir p))
    ∧ (mapGet cache (promptNameOfPath (resolveRelativePath promptsDir p)) = none →
        removeFromCache promptsDir cache p = cache)
    ∧ (strEndsWith p ".md" = true →
        mapGet (removeFromCache promptsDir (updateCacheForFile parse promptsDir fs cache p) p)
          (promptNameOfPath (resolveRelativePath promptsDir p)) = none) := by
  refine ⟨fun i h => loadPromptMetadata_name h, ?_, ?_⟩
  · intro habs
    by_cases hmd : strEndsWith p ".md" = true
    · rw [removeFromCache_of_md hmd]
      exact mapDelete_of_absent habs
    · unfold removeFromCache
      rw [if_pos (by simp [Bool.eq_false_iff.mpr hmd])]
  · intro hmd
    rw [removeFromCache_of_md hmd]
    exact mapGet_mapDelete_self _ _

/-- C5, witness: deleting the absent key is a no-op on the empty cache, and
upsert of team/review.md followed by remove of the same path leaves the
name team_review absent. -/
theorem c5_witness :
    (mapGet [] (promptNameOfPath (resolveRelativePath "/p" "team/review.md")) = none ∧
      removeFromCache "/p" [] "team/review.md" = []) ∧
    (strEndsWith "team/review.md" ".md" = true ∧
      mapGet
        (removeFromCache "/p"
          (updateCacheForFile parseBody "/p" treeNested [] "team/review.md") "team/review.md")
        (promptNameOfPath (resolveRelativePath "/p" "team/review.md")) = none) :=
  ⟨⟨by decide,
    (c5_remove_consistency parseBody "/p" treeNested [] "team/review.md").2.1 (by decide)⟩,
   ⟨by decide,
    (c5_remove_consistency parseBody "/p" treeNested [] "team/review.md").2.2 (by decide)⟩⟩

/-- C8: every loaded record's preview is the first 100 characters of the
parsed body with newlines collapsed to spaces, trimmed, followed by the
ellipsis marker; it is computed in full from the freshly parsed body on
every load. -/
theorem c8_preview (parse : String → Option MatterResult) (fs : FSTree) (p : String)
    (i : PromptInfo) (h : loadPromptMetadata parse fs p = some i) :
    ∃ raw parsed, readFile fs p = some raw ∧ parse raw = some parsed ∧
      i.preview =
        jsTrim ⟨(parsed.content.data.take 100).map (fun c => if c == '\n' then ' ' else c)⟩
          ++ "..." := by
  unfold loadPromptMetadata at h
  cases hr : readFile fs p with
  | none =>
    simp only [hr] at h
    exact Option.noConfusion h
  | some content =>
    simp only [hr] at h
    cases hp : parse content with
    | none =>
      simp only [hp] at h
      exact Option.noConfusion h
    | some parsed =>
      simp only [hp, Option.some.injEq] at h
      refine ⟨content, parsed, rfl, hp, ?_⟩
      rw [← h]
      rfl

/-- C8, witness: the record loaded from team/review.md carries the preview of
its body B. -/
theorem c8_witness :
    loadPromptMetadata parseBody treeNested "team/review.md" =
        some { name := "team_review", metadata := [], preview := "B..." } ∧
      ∃ raw parsed, readFile treeNested "team/review.md" = some raw ∧
        parseBody raw = some parsed ∧
        ({ name := "team_review", metadata := [], preview := "B..." } : PromptInfo).preview =
          jsTrim ⟨(parsed.content.data.take 100).map (fun c => if c == '\n' then ' ' else c)⟩
            ++ "..." :=
  ⟨by decide, c8_preview parseBody treeNested "team/review.md" _ (by decide)⟩

/-- C9, counterexample: x.md exists and the resolver locates it, yet
readPrompt fails, and it fails with the very same not-found outcome a
resolver miss produces (the source throws the identical templated error in
both branches), refuting the only-if direction and the distinguishability
of the two failures. -/
theorem c9_counterexample :
    readPrompt treeUnreadable "x" = ReadPromptResult.notFound ∧
      findPromptFile treeUnreadable "x" = some "x.md" := by
  constructor
  · decide
  · decide

/-- C9 (amended): readPrompt yields the not-found failure exactly when the
resolver locates no file or the located file cannot be read, and yields
content exactly when the located file reads successfully; the two failure
modes are merged into one indistinguishable error. -/
theorem readPrompt_of_find_none {fs : FSTree} {name : String}
    (h : findPromptFile fs name = none) :
    readPrompt fs name = ReadPromptResult.notFound := by
  unfold readPrompt
  rw [h]

theorem readPrompt_of_find_some {fs : FSTree} {name q : String}
    (h : findPromptFile fs name = some q) :
    readPrompt fs name =
      match readFile fs q with
      | some content => ReadPromptResult.ok content
      | none => ReadPromptResult.notFound := by
  unfold readPrompt
  rw [h]

/-- C9 (amended): readPrompt yields the not-found failure exactly when the
resolver locates no file or the located file cannot be read, and yields
content exactly when the located file reads successfully; the two failure
modes are merged into one indistinguishable error. -/
theorem c9_not_found_iff (fs : FSTree) (name : String) :
    (readPrompt fs name = ReadPromptResult.notFound ↔
      findPromptFile fs name = none ∨
        ∃ p, findPromptFile fs name = some p ∧ readFile fs p = none)
    ∧ ∀ content, readPrompt fs name = ReadPromptResult.ok content ↔
        ∃ p, findPromptFile fs name = some p ∧ readFile fs p = some content := by
  cases hf : findPromptFile fs name with
  | none =>
    rw [readPrompt_of_find_none hf]
    constructor
    · exact ⟨fun _ => Or.inl rfl, fun _ => rfl⟩
    · intro content
      constructor
      · intro h
        exact absurd h (by simp)
      · rintro ⟨p, hp, _⟩
        exact Option.noConfusion hp
  | some q =>
    rw [readPrompt_of_find_some hf]
    cases hr : readFile fs q with
    | none =>
      constructor
      · constructor
        · intro _
          exact Or.inr ⟨q, rfl, hr⟩
        · intro _
          rfl
      · intro content
        constructor
        · intro h
          exact absurd h (by simp)
        · rintro ⟨p, hp, hread⟩
          injection hp with hpq
          rw [← hpq] at hread
          rw [hr] at hread
          exact Option.noConfusion hread
    | some c =>
      constructor
      · constructor
        · intro h
          exact absurd h (by simp)
        · rintro (h | ⟨p, hp, hread⟩)
          · exact Option.noConfusion h
          · injection hp with hpq
            rw [← hpq] at hread
            rw [hr] at hread
            exact Option.noConfusion hread
      · intro content
        constructor
        · intro h
          injection h with hcc
          exact ⟨q, rfl, by rw [hr, hcc]⟩
        · rintro ⟨p, hp, hread⟩
          injection hp with hpq
          rw [← hpq] at hread
          rw [hr] at hread
          injection hread with hcc
          rw [hcc]

/-- C9, witness: on a root with a readable team/review.md, reading a missing
name yields the not-found failure via the resolver-miss disjunct. -/
theorem c9_witness :
    readPrompt treeNested "team/missing" = ReadPromptResult.notFound ↔
      findPromptFile treeNested "team/missing" = none ∨
        ∃ p, findPromptFile treeNested "team/missing" = some p ∧
          readFile treeNested p = none :=
  (c9_not_found_iff treeNested "team/missing").1

theorem resolveRelativePath_of_good {promptsDir p : String}
    (h : (splitSlash p.data).all goodComp = true) :
    resolveRelativePath promptsDir p = p := by
  unfold resolveRelativePath
  rw [if_neg (Bool.eq_false_iff.mp (not_slash_of_all_good h))]

theorem mapGet_entry {m : CacheMap} {k : String} {v : PromptInfo}
    (h : mapGet m k = some v) : ∃ kv, kv ∈ m ∧ kv.1 = k ∧ kv.2 = v := by
  unfold mapGet at h
  cases hf : m.find? (fun e => e.1 == k) with
  | none =>
    rw [hf] at h
    exact Option.noConfusion h
  | some e =>
    rw [hf] at h
    refine ⟨e, List.mem_of_find?_eq_some hf, ?_, ?_⟩
    · have := List.find?_some hf
      simpa using this
    · injection h

theorem loadPromptMetadata_read_fail {parse : String → Option MatterResult} {fs : FSTree}
    {p : String} (h : readFile fs p = none) : loadPromptMetadata parse fs p = none := by
  unfold loadPromptMetadata
  rw [h]

theorem loadPromptMetadata_parse_fail {parse : String → Option MatterResult} {fs : FSTree}
    {p raw : String} (hr : readFile fs p = some raw) (hp : parse raw = none) :
    loadPromptMetadata parse fs p = none := by
  unfold loadPromptMetadata
  simp only [hr, hp]

/-- C4: when two document paths load to records with the same flattened name,
upserting both leaves exactly one entry under that name, holding the record
loaded last, and both upserts are total operations (no error is possible). -/
theorem c4_last_wins (parse : String → Option MatterResult) (promptsDir : String)
    (fs : FSTree) (cache : CacheMap) (p1 p2 : String) (r1 r2 : PromptInfo)
    (hcount : countKey cache r2.name ≤ 1)
    (hmd1 : strEndsWith p1 ".md" = true) (hmd2 : strEndsWith p2 ".md" = true)
    (hload1 : loadPromptMetadata parse fs (resolveRelativePath promptsDir p1) = some r1)
    (hload2 : loadPromptMetadata parse fs (resolveRelativePath promptsDir p2) = some r2)
    (hname : r1.name = r2.name) :
    mapGet (updateCacheForFile parse promptsDir fs
        (updateCacheForFile parse promptsDir fs cache p1) p2) r2.name = some r2
    ∧ countKey (updateCacheForFile parse promptsDir fs
        (updateCacheForFile parse promptsDir fs cache p1) p2) r2.name = 1 := by
  rw [updateCacheForFile_of_md hmd1, hload1, updateCacheForFile_of_md hmd2, hload2]
  constructor
  · show mapGet (mapSet (mapSet cache r1.name r1) r2.name r2) r2.name = some r2
    rw [mapGet_mapSet, if_pos rfl]
  · show countKey (mapSet (mapSet cache r1.name r1) r2.name r2) r2.name = 1
    apply countKey_mapSet_self
    rw [← hname]
    exact le_of_eq (countKey_mapSet_self cache r1.name r1 (by rw [hname]; exact hcount))

/-- C4, witness: loading a/b.md then a_b.md leaves one entry named a_b holding
the record loaded last. -/
theorem c4_witness :
    (countKey [] recFlat.name ≤ 1 ∧ recNested.name = recFlat.name) ∧
      mapGet (updateCacheForFile parseBody "/p" treeFlat
          (updateCacheForFile parseBody "/p" treeFlat [] "a/b.md") "a_b.md") recFlat.name =
        some recFlat ∧
      countKey (updateCacheForFile parseBody "/p" treeFlat
          (updateCacheForFile parseBody "/p" treeFlat [] "a/b.md") "a_b.md") recFlat.name = 1 :=
  ⟨⟨by decide, by decide⟩,
    c4_last_wins parseBody "/p" treeFlat [] "a/b.md" "a_b.md" recNested recFlat
      (by decide) (by decide) (by decide) (by decide) (by decide) (by decide)⟩

/-- C6: a file whose read or front-matter parse fails loads to no record
rather than an error, and the bulk-loaded index holds a record under a key
exactly when some scanned file loads successfully to a record with that name
(the whole bulk load is a total function, so no failure escapes it). -/
theorem c6_partial_failure (parse : String → Option MatterResult) (promptsDir : String)
    (fs : FSTree) (cache : CacheMap) (hval : validTree fs = true) :
    (∀ p, (readFile fs p = none ∨ ∃ raw, readFile fs p = some raw ∧ parse raw = none) →
      loadPromptMetadata parse fs p = none)
    ∧ ∀ k, (mapGet (initializeCache parse promptsDir fs cache) k ≠ none ↔
        ∃ p ∈ findMarkdownFiles fs, ∃ i,
          loadPromptMetadata parse fs p = some i ∧ i.name = k) := by
  constructor
  · intro p h
    rcases h with h | ⟨raw, hr, hp⟩
    · exact loadPromptMetadata_read_fail h
    · exact loadPromptMetadata_parse_fail hr hp
  · intro k
    constructor
    · intro h
      obtain ⟨v, hv⟩ : ∃ v, mapGet (initializeCache parse promptsDir fs cache) k = some v := by
        cases hmg : mapGet (initializeCache parse promptsDir fs cache) k with
        | none => exact absurd hmg h
        | some v => exact ⟨v, rfl⟩
      obtain ⟨kv, hkv, hk1, hk2⟩ := mapGet_entry hv
      unfold initializeCache at hkv
      rcases foldl_update_entries parse promptsDir fs (findMarkdownFiles fs) [] kv hkv with
        h0 | ⟨q, hq, hload, hname⟩
      · simp at h0
      · have hgood := (findMarkdownFiles_good hval q hq).1
        rw [resolveRelativePath_of_good hgood] at hload
        exact ⟨q, hq, kv.2, hload, by rw [← hname, hk1]⟩
    · rintro ⟨p, hp, i, hload, hname⟩
      have hgood := findMarkdownFiles_good hval p hp
      have hrel : resolveRelativePath promptsDir p = p := resolveRelativePath_of_good hgood.1
      have hmain := mapGet_foldl_of_load parse promptsDir fs (findMarkdownFiles fs) [] hp
        hgood.2 (by rw [hrel]; exact hload)
      rw [← hname]
      exact hmain

/-- C6, witness: over a root with a readable a.md and an unreadable b.md, the
index has a record under the key a. -/
theorem c6_witness :
    validTree treeMix = true ∧
      (mapGet (initializeCache parseBody "/p" treeMix []) "a" ≠ none ↔
        ∃ p ∈ findMarkdownFiles treeMix, ∃ i,
          loadPromptMetadata parseBody treeMix p = some i ∧ i.name = "a") :=
  ⟨by decide, (c6_partial_failure parseBody "/p" treeMix [] (by decide)).2 "a"⟩

/-- C7: a path with a component starting with the hidden marker is never a
scan result, and every entry of the bulk-loaded index comes from a scanned
(hence fully visible) file. -/
theorem c7_hidden_skipped (parse : String → Option MatterResult) (promptsDir : String)
    (fs : FSTree) (cache : CacheMap) (p : String)
    (hval : validTree fs = true) (hhid : hasHiddenComponent p = true) :
    p ∉ findMarkdownFiles fs ∧
      ∀ kv ∈ initializeCache parse promptsDir fs cache, ∃ q ∈ findMarkdownFiles fs,
        loadPromptMetadata parse fs q = some kv.2 ∧ kv.1 = kv.2.name := by
  constructor
  · intro hp
    have hgood := (findMarkdownFiles_good hval p hp).1
    rw [not_hidden_of_all_good hgood] at hhid
    exact Bool.noConfusion hhid
  · intro kv hkv
    unfold initializeCache at hkv
    rcases foldl_update_entries parse promptsDir fs (findMarkdownFiles fs) [] kv hkv with
      h0 | ⟨q, hq, hload, hname⟩
    · simp at h0
    · have hgood := (findMarkdownFiles_good hval q hq).1
      rw [resolveRelativePath_of_good hgood] at hload
      exact ⟨q, hq, hload, hname⟩

/-- C7, witness: .hidden/x.md is skipped by the scan of treeHidden, whose
index entries all come from visible scanned files. -/
theorem c7_witness :
    (validTree treeHidden = true ∧ hasHiddenComponent ".hidden/x.md" = true) ∧
      (".hidden/x.md" ∉ findMarkdownFiles treeHidden ∧
        ∀ kv ∈ initializeCache parseBody "/p" treeHidden [], ∃ q ∈ findMarkdownFiles treeHidden,
          loadPromptMetadata parseBody treeHidden q = some kv.2 ∧ kv.1 = kv.2.name) :=
  ⟨⟨by decide, by decide⟩,
    c7_hidden_skipped parseBody "/p" treeHidden [] ".hidden/x.md" (by decide) (by decide)⟩

end PromptsMcp
